import Mathlib

/-!
Verification development for the SmartPad text-analysis core.

The Python sources are shallowly embedded over `List Char`: a Python string
is the list of its characters, `str.split` / `str.join` / `str.strip`
become explicit list functions, and each formatter, the find engine, the
language detector and the highlighter driver loop are translated function
by function from `src/formatters.py`, `src/text_editor.py`, `src/utils.py`
and `src/syntax_highlighter.py`.  The external library calls that the code
delegates to (`xml.dom.minidom`, `json.loads`, `QRegExp`) are modelled as
explicit function parameters or as faithful re-implementations, noted at
each definition.
-/

namespace SmartPad

/-- Python whitespace predicate for `str.strip` and friends (ASCII range,
which is what the formatter inputs exercise). -/
def pyIsSpace (c : Char) : Bool :=
  c = ' ' || c = '\t' || c = '\n' || c = '\r' || c = '\x0b' || c = '\x0c'

/-- Python `str.lstrip()`. -/
def pyLstrip (l : List Char) : List Char := l.dropWhile pyIsSpace

/-- Python `str.rstrip()`. -/
def pyRstrip (l : List Char) : List Char := (l.reverse.dropWhile pyIsSpace).reverse

/-- Python `str.strip()`. -/
def pyStrip (l : List Char) : List Char := pyRstrip (pyLstrip l)

/-- Python falsiness of `content.strip()`: true when the string is empty or
whitespace-only. -/
def pyIsBlank (l : List Char) : Bool := l.all pyIsSpace

/-- Python `s.startswith(p)`. -/
def pyStarts (p l : List Char) : Bool :=
  match p, l with
  | [], _ => true
  | _ :: _, [] => false
  | a :: ps, b :: cs => a = b && pyStarts ps cs

/-- Python `s.endswith(p)`. -/
def pyEnds (p l : List Char) : Bool := pyStarts p.reverse l.reverse

/-- Python `s.startswith(tuple)`: true when some alternative is a prefix. -/
def pyStartsAny (ps : List (List Char)) (l : List Char) : Bool :=
  ps.any (fun p => pyStarts p l)

/-- Python `content.split(chr(10))`. -/
def splitNl : List Char → List (List Char)
  | [] => [[]]
  | c :: cs =>
    if c = '\n' then [] :: splitNl cs
    else
      match splitNl cs with
      | [] => [[c]]
      | l :: ls => (c :: l) :: ls

/-- Python `(chr(10)).join(lines)`. -/
def joinNl : List (List Char) → List Char
  | [] => []
  | [l] => l
  | l :: ls => l ++ '\n' :: joinNl ls

/-- Repeated spaces, Python `chr(32) * n`. -/
def spaces (n : Nat) : List Char := List.replicate n ' '

theorem splitNl_ne_nil (c : List Char) : splitNl c ≠ [] := by
  induction c with
  | nil => simp [splitNl]
  | cons a cs ih =>
    simp only [splitNl]
    split
    · simp
    · rcases h : splitNl cs with _ | ⟨l, ls⟩ <;> simp

theorem splitNl_no_newline (c : List Char) : ∀ l ∈ splitNl c, '\n' ∉ l := by
  induction c with
  | nil => intro l hl; simp [splitNl] at hl; simp [hl]
  | cons a cs ih =>
    intro l hl
    simp only [splitNl] at hl
    by_cases ha : a = '\n'
    · simp [ha] at hl
      rcases hl with h | h
      · simp [h]
      · exact ih l h
    · simp [ha] at hl
      rcases h : splitNl cs with _ | ⟨m, ms⟩
      · exact absurd h (splitNl_ne_nil cs)
      · rw [h] at hl
        simp at hl
        rcases hl with h1 | h1
        · subst h1
          intro hmem
          rcases List.mem_cons.mp hmem with h2 | h2
          · exact ha h2.symm
          · exact ih m (by simp [h]) h2
        · exact ih l (by simp [h, h1])

theorem splitNl_joinNl (ls : List (List Char)) (hne : ls ≠ [])
    (h : ∀ l ∈ ls, '\n' ∉ l) : splitNl (joinNl ls) = ls := by
  induction ls with
  | nil => exact absurd rfl hne
  | cons l rest ih =>
    rcases rest with _ | ⟨m, ms⟩
    · -- single line: splitNl l = [l] when l has no newline
      have hl : '\n' ∉ l := h l (by simp)
      clear ih hne h
      induction l with
      | nil => simp [joinNl, splitNl]
      | cons a as iha =>
        have ha : a ≠ '\n' := fun hc => hl (by simp [hc])
        have has : '\n' ∉ as := fun hc => hl (by simp [hc])
        simp only [joinNl] at *
        simp only [splitNl, ha, if_false]
        rw [iha has]
    · have hl : '\n' ∉ l := h l (by simp)
      have hrest : splitNl (joinNl (m :: ms)) = m :: ms :=
        ih (by simp) (fun x hx => h x (by simp [hx]))
      have : joinNl (l :: m :: ms) = l ++ '\n' :: joinNl (m :: ms) := rfl
      rw [this]
      clear this ih hne h
      induction l with
      | nil => simpa [splitNl] using hrest
      | cons a as iha =>
        have ha : a ≠ '\n' := fun hc => hl (by simp [hc])
        have has : '\n' ∉ as := fun hc => hl (by simp [hc])
        simp only [List.cons_append, splitNl, ha, if_false]
        rw [show as.append ('\n' :: joinNl (m :: ms)) = as ++ '\n' :: joinNl (m :: ms) from rfl,
          iha has]

/-- Error message shared by all five formatters for blank input, from
`formatters.py` (`return None, "No content to format"`). -/
def noContentMsg : List Char := "No content to format".toList

/-- Result pair of a formatter, Python's `(formattedText | None, error | None)`. -/
abbrev FmtResult := Option (List Char) × Option (List Char)

/-- Pre-emission level adjustment of the re-leveler: decrement floored at
zero (Python `max(0, level - 1)`, here Nat subtraction). -/
def preLvl (preDec : List Char → Bool) (lvl : Nat) (s : List Char) : Nat :=
  if preDec s then lvl - 1 else lvl

/-- Post-emission level adjustment of the re-leveler: increment on
`postInc`, or else decrement floored at zero on `postDec`. -/
def postLvl (postInc postDec : List Char → Bool) (l1 : Nat) (s : List Char) : Nat :=
  if postInc s then l1 + 1 else if postDec s then l1 - 1 else l1

/-- Line-oriented indentation re-leveler shared by `Formatters.format_python`
and `Formatters.format_javascript`: per non-blank line, optionally decrement
the level before emitting (`preDec`), emit `indentLevel*size` spaces plus the
left-stripped line, then increment on `postInc` or else decrement on
`postDec`; whitespace-only lines are emitted as empty lines and leave the
level unchanged. -/
def relevelGo (size : Nat) (preDec postInc postDec : List Char → Bool) :
    Nat → List (List Char) → List (List Char)
  | _, [] => []
  | lvl, line :: rest =>
    let s := pyLstrip line
    if s.isEmpty then [] :: relevelGo size preDec postInc postDec lvl rest
    else
      (spaces (preLvl preDec lvl s * size) ++ s) ::
        relevelGo size preDec postInc postDec
          (postLvl postInc postDec (preLvl preDec lvl s) s) rest

/-- Keywords that dedent before emission in `Formatters.format_python`. -/
def pyPreDec (s : List Char) : Bool :=
  pyStartsAny ["elif ".toList, "else:".toList, "except".toList,
    "finally:".toList, "except ".toList] s

/-- Colon suffix test that indents after emission in `Formatters.format_python`. -/
def pyPostInc (s : List Char) : Bool := pyEnds ":".toList s

/-- Keywords that dedent after emission in `Formatters.format_python`. -/
def pyPostDec (s : List Char) : Bool :=
  pyStartsAny ["return ".toList, "break".toList, "continue".toList,
    "pass".toList, "raise ".toList] s

/-- The Python-like formatter `Formatters.format_python`. -/
def format_python (content : List Char) : FmtResult :=
  if pyIsBlank content then (none, some noContentMsg)
  else (some (joinNl (relevelGo 4 pyPreDec pyPostInc pyPostDec 0 (splitNl content))), none)

/-- Closing brace or bracket prefix test of `Formatters.format_javascript`. -/
def jsPreDec (s : List Char) : Bool :=
  pyStartsAny ["\x7d".toList, "]".toList] s

/-- Opening brace or bracket suffix test of `Formatters.format_javascript`. -/
def jsPostInc (s : List Char) : Bool :=
  pyEnds "\x7b".toList s || pyEnds "[".toList s

/-- The JS-like formatter `Formatters.format_javascript` (the semicolon
branch of the source is a `pass` and changes nothing). -/
def format_javascript (content : List Char) : FmtResult :=
  if pyIsBlank content then (none, some noContentMsg)
  else (some (joinNl (relevelGo 2 jsPreDec jsPostInc (fun _ => false) 0 (splitNl content))), none)

/-- One step of the character scan of `Formatters.format_css`: state is the
output so far, the indent level and the `in_rule` flag. -/
def cssStep (st : List Char × Nat × Bool) (ch : Char) : List Char × Nat × Bool :=
  let f := st.1
  let lvl := st.2.1
  let inRule := st.2.2
  if ch = '\x7b' then
    (f ++ " \x7b\n".toList ++ spaces ((lvl + 1) * 2), lvl + 1, true)
  else if ch = '\x7d' then
    (f ++ '\n' :: spaces ((lvl - 1) * 2) ++ "\x7d".toList, lvl - 1, false)
  else if ch = ';' then
    (f ++ ";\n".toList ++ (if inRule then spaces (lvl * 2) else []), lvl, inRule)
  else if ch = '\n' then
    ((if f ≠ [] ∧ f.getLast? ≠ some '\n' then f ++ [' '] else f), lvl, inRule)
  else
    (f ++ [ch], lvl, inRule)

/-- Final cleanup loop of `Formatters.format_css`: keep each right-stripped
line when non-empty, and keep an empty line only when some line was already
kept and the last kept line is not whitespace-only. -/
def cssCleanGo (acc : List (List Char)) : List (List Char) → List (List Char)
  | [] => acc.reverse
  | l :: rest =>
    let c := pyRstrip l
    if ¬c.isEmpty then cssCleanGo (c :: acc) rest
    else
      match acc with
      | [] => cssCleanGo acc rest
      | last :: _ =>
        if (pyStrip last).isEmpty then cssCleanGo acc rest
        else cssCleanGo (c :: acc) rest

/-- The CSS formatter `Formatters.format_css`. -/
def format_css (content : List Char) : FmtResult :=
  if pyIsBlank content then (none, some noContentMsg)
  else
    let f := (content.foldl cssStep ([], 0, false)).1
    (some (joinNl (cssCleanGo [] (splitNl f))), none)

/-- Indentation of a line as computed in `Formatters.format_xml`:
`len(line) - len(line.lstrip())`. -/
def indentOf (l : List Char) : Nat := l.length - (pyLstrip l).length

/-- Declaration-line test of `Formatters.format_xml`: the raw line begins
with the five characters of an XML declaration marker. -/
def isDecl (l : List Char) : Bool := pyStarts "<?xml".toList l

/-- Blank-line decision of the secondary pass of `Formatters.format_xml`,
computed from the previous emitted non-declaration line (if any) and the
current line. -/
def xmlBlankBefore (prev : Option (List Char)) (line : List Char) : Bool :=
  match prev with
  | none => false
  | some p =>
    let s := pyStrip line
    let ps := pyStrip p
    let ind := indentOf line
    let pind := indentOf p
    let isComment := pyStarts "<!--".toList s
    let isClosing := pyStarts "</".toList s
    let isOpening := pyStarts "<".toList s && !isClosing && !isComment
    if isComment then false
    else if isOpening then
      if pyStarts "</".toList ps then decide (ind ≤ pind)
      else if pyStarts "<".toList ps && !pyStarts "<!--".toList ps then
        decide (ind = pind) && decide (0 < ind)
      else false
    else false

/-- Loop of the secondary pass of `Formatters.format_xml` over the cleaned
lines: declaration lines are kept as is (followed by one blank line unless
last, and without updating the previous-line state); other lines get a
blank line in front exactly when `xmlBlankBefore` fires, and become the new
previous line. -/
def xmlPassGo (prev : Option (List Char)) : List (List Char) → List (List Char)
  | [] => []
  | line :: rest =>
    if isDecl line then
      line :: (if rest.isEmpty then [] else [[]]) ++ xmlPassGo prev rest
    else
      (if xmlBlankBefore prev line then [[], line] else [line]) ++
        xmlPassGo (some line) rest

/-- Secondary formatting pass of `Formatters.format_xml` (source lines
39..77), starting with no previous line. -/
def xmlSecondaryPass (lines : List (List Char)) : List (List Char) :=
  xmlPassGo none lines

/-- Cleanup step of `Formatters.format_xml`: right-strip each line of the
pretty-printed text and drop the empty ones. -/
def cleanupLines (lines : List (List Char)) : List (List Char) :=
  (lines.map pyRstrip).filter (fun l => !l.isEmpty)

/-- Declaration-restoring step of `Formatters.format_xml` (source lines
81..88): when the stripped input starts with an XML declaration and the
formatted text does too, replace the first formatted line with the first
line of the stripped input. -/
def preserveDecl (content formatted : List Char) : List Char :=
  if pyStarts "<?xml".toList (pyStrip content) then
    let decl := (splitNl (pyStrip content)).headD []
    if pyStarts "<?xml".toList formatted then
      joinNl (match splitNl formatted with
        | [] => []
        | _ :: t => decl :: t)
    else formatted
  else formatted

/-- Post-parse pipeline of `Formatters.format_xml` applied to the
pretty-printer output. -/
def xmlPost (pretty content : List Char) : List Char :=
  preserveDecl content (joinNl (xmlSecondaryPass (cleanupLines (splitNl pretty))))

/-- The XML formatter `Formatters.format_xml`.  The external
`xml.dom.minidom.parseString` + `toprettyxml` stage is the parameter `pp`:
on failure it yields the parser's error message (the `except` branch of the
source), on success the pretty-printed text that the source then
post-processes. -/
def format_xml (pp : List Char → Except (List Char) (List Char))
    (content : List Char) : FmtResult :=
  if pyIsBlank content then (none, some noContentMsg)
  else
    match pp content with
    | Except.error e => (none, some e)
    | Except.ok pretty => (some (xmlPost pretty content), none)

/-- The JSON formatter `Formatters.format_json`.  The external
`json.loads` + `json.dumps` stage is the parameter `pd`: parse error or
re-serialized text. -/
def format_json (pd : List Char → Except (List Char) (List Char))
    (content : List Char) : FmtResult :=
  if pyIsBlank content then (none, some noContentMsg)
  else
    match pd content with
    | Except.error e => (none, some e)
    | Except.ok t => (some t, none)

/-- Python `str.lower()` on one character (ASCII range, which is what the
fixed extension table and the search claims exercise). -/
def pyToLower (c : Char) : Char :=
  if 'A' ≤ c ∧ c ≤ 'Z' then Char.ofNat (c.toNat + 32) else c

/-- Case-insensitive prefix test: the `re.IGNORECASE` literal matching used
by `FindBar.count_matches`. -/
def ciStarts (p l : List Char) : Bool :=
  pyStarts (p.map pyToLower) (l.map pyToLower)

/-- Scan of `re.finditer(re.escape(query), content, re.IGNORECASE)` in
`FindBar.count_matches`: all non-overlapping case-insensitive occurrence
start offsets, left to right.  The fuel argument only bounds the recursion;
each step consumes at least one character. -/
def scanPos (q : List Char) : Nat → List Char → Nat → List Nat
  | 0, _, _ => []
  | Nat.succ fuel, l, base =>
    match l with
    | [] => []
    | c :: rest =>
      if ciStarts q (c :: rest) then
        base :: scanPos q fuel (List.drop (q.length - 1) rest) (base + q.length)
      else scanPos q fuel rest (base + 1)

/-- Match-position index built by `FindBar.count_matches` (empty when the
query is empty, which the source guards against). -/
def findPositions (content query : List Char) : List Nat :=
  if query.isEmpty then [] else scanPos query (content.length + 1) content 0

/-- Selection step of `FindBar.find_next`: with no positions the search
reports nothing and the cursor stays; otherwise take the first position
strictly beyond the cursor, or wrap to the first position; the selected
match spans the query length. -/
def find_next (positions : List Nat) (qlen cursor : Nat) : Option (Nat × Nat) :=
  if positions.isEmpty then none
  else
    match positions.find? (fun p => decide (cursor < p)) with
    | some p => some (p, p + qlen)
    | none =>
      match positions with
      | [] => none
      | p0 :: _ => some (p0, p0 + qlen)

/-- Python `pathlib.PurePath.name`: the part after the last slash. -/
def pathName (f : List Char) : List Char :=
  (f.reverse.takeWhile (fun c => c ≠ '/')).reverse

/-- Python `pathlib.PurePath.suffix`: the extension of the name, empty
unless the last dot sits strictly inside the name. -/
def pySuffix (f : List Char) : List Char :=
  match (pathName f).reverse.findIdx? (fun c => c = '.') with
  | none => []
  | some j =>
    if 0 < (pathName f).length - 1 - j ∧ (pathName f).length - 1 - j < (pathName f).length - 1
    then (pathName f).drop ((pathName f).length - 1 - j)
    else []

/-- Extension table of `utils.detect_language`, looked up on the lowered
suffix; unknown or missing extensions fall back to `generic`. -/
def lookupExt (ext : List Char) : List Char :=
  if ext = ".xml".toList then "xml".toList
  else if ext = ".html".toList then "html".toList
  else if ext = ".htm".toList then "html".toList
  else if ext = ".json".toList then "json".toList
  else if ext = ".py".toList then "python".toList
  else if ext = ".css".toList then "css".toList
  else if ext = ".js".toList then "javascript".toList
  else if ext = ".jsx".toList then "javascript".toList
  else "generic".toList

/-- Language detection from a filename, `utils.detect_language`. -/
def detect_language (f : List Char) : List Char :=
  if f.isEmpty then "generic".toList
  else lookupExt ((pySuffix f).map pyToLower)

/-- Count of the non-overlapping matches of the pattern `<[^>]+>` found by
`re.findall` in `utils.detect_file_type_from_content`: at a `<`, the match
runs to the first `>` provided at least one character lies between, and
scanning resumes after the match. -/
def tagCountGo : Nat → List Char → Nat
  | 0, _ => 0
  | Nat.succ fuel, l =>
    match l with
    | [] => 0
    | c :: r =>
      if c = '<' then
        let m := r.takeWhile (fun x => x ≠ '>')
        if m.isEmpty then tagCountGo fuel r
        else if (r.drop m.length).isEmpty then tagCountGo fuel r
        else 1 + tagCountGo fuel (r.drop (m.length + 1))
      else tagCountGo fuel r

/-- Entry point of the tag count with enough fuel for the whole text. -/
def tagCount (c : List Char) : Nat := tagCountGo (c.length + 1) c

/-- Word character of the Python regex `\w` (ASCII range). -/
def isWordChar (c : Char) : Bool :=
  ('a' ≤ c && c ≤ 'z') || ('A' ≤ c && c ≤ 'Z') || ('0' ≤ c && c ≤ '9') || c = '_'

/-- Test whether `re.search(pattern)` succeeds: some suffix of the text
matches the pattern at its start. -/
def reSearch (test : List Char → Bool) (l : List Char) : Bool :=
  l.tails.any test

/-- Anchored form of the regex `</\w+>` from
`utils.detect_file_type_from_content`. -/
def closingTagAt (l : List Char) : Bool :=
  match l with
  | '<' :: '/' :: r =>
    let w := r.takeWhile isWordChar
    !w.isEmpty && pyStarts ">".toList (r.drop w.length)
  | _ => false

/-- Anchored form of the regex `<\w+[^>]*/>` from
`utils.detect_file_type_from_content`: a word character follows the `<`,
and the first later `>` is immediately preceded by `/`. -/
def selfCloseAt (l : List Char) : Bool :=
  match l with
  | '<' :: c :: r =>
    isWordChar c &&
      (let m := (c :: r).takeWhile (fun x => x ≠ '>')
       pyStarts ">".toList ((c :: r).drop m.length) && m.getLast? = some '/')
  | _ => false

/-- Anchored form of the regex `"[^"]+"\s*:` (a quoted key followed by a
colon) from `utils.detect_file_type_from_content`. -/
def jsonKeyAt (l : List Char) : Bool :=
  match l with
  | '"' :: r =>
    let inn := r.takeWhile (fun x => x ≠ '"')
    !inn.isEmpty &&
      (match r.drop inn.length with
       | '"' :: r2 => pyStarts ":".toList (r2.dropWhile pyIsSpace)
       | _ => false)
  | _ => false

/-- Anchored form of the regex `:\s*"[^"]+"` (a colon followed by a quoted
value) from `utils.detect_file_type_from_content`. -/
def jsonValAt (l : List Char) : Bool :=
  match l with
  | ':' :: r =>
    (match r.dropWhile pyIsSpace with
     | '"' :: r2 =>
       let inn := r2.takeWhile (fun x => x ≠ '"')
       !inn.isEmpty && pyStarts "\"".toList (r2.drop inn.length)
     | _ => false)
  | _ => false

/-- JSON whitespace accepted between tokens by Python's `json.loads`. -/
def jsonWs (c : Char) : Bool := c = ' ' || c = '\t' || c = '\n' || c = '\r'

/-- Hexadecimal digit for a `\u` escape. -/
def jsonHex (c : Char) : Bool :=
  c.isDigit || ('a' ≤ c && c ≤ 'f') || ('A' ≤ c && c ≤ 'F')

/-- Single-character string escapes of JSON. -/
def jsonEscape (c : Char) : Bool :=
  c = '"' || c = '\\' || c = '/' || c = 'b' || c = 'f' || c = 'n' || c = 'r' || c = 't'

/-- Remainder after a JSON string body (opening quote already consumed),
checked as Python's strict `json.loads` does: no raw control characters,
recognised escapes only. -/
def jsonStrRest : List Char → Option (List Char)
  | [] => none
  | '"' :: r => some r
  | '\\' :: e :: r =>
    if e = 'u' then
      match r with
      | h1 :: h2 :: h3 :: h4 :: r2 =>
        if jsonHex h1 && jsonHex h2 && jsonHex h3 && jsonHex h4 then jsonStrRest r2
        else none
      | _ => none
    else if jsonEscape e then jsonStrRest r else none
  | c :: r => if 0x20 ≤ c.toNat then jsonStrRest r else none

/-- Remainder after the digits of a JSON exponent. -/
def jsonExpDigits (l : List Char) : Option (List Char) :=
  let l1 := match l with
    | '+' :: r => r
    | '-' :: r => r
    | _ => l
  match l1 with
  | c :: r => if c.isDigit then some (r.dropWhile Char.isDigit) else none
  | [] => none

/-- Remainder after an optional JSON exponent. -/
def jsonExpRest (l : List Char) : Option (List Char) :=
  match l with
  | 'e' :: r => jsonExpDigits r
  | 'E' :: r => jsonExpDigits r
  | _ => some l

/-- Remainder after an optional JSON fraction and exponent. -/
def jsonFrac (l : List Char) : Option (List Char) :=
  match l with
  | '.' :: r =>
    match r with
    | c :: r2 => if c.isDigit then jsonExpRest (r2.dropWhile Char.isDigit) else none
    | [] => none
  | _ => jsonExpRest l

/-- Remainder after a JSON number (no leading zeros, as in `json.loads`). -/
def jsonNumRest (l : List Char) : Option (List Char) :=
  let l1 := if pyStarts "-".toList l then l.tail else l
  match l1 with
  | '0' :: r => jsonFrac r
  | c :: r => if c.isDigit then jsonFrac (r.dropWhile Char.isDigit) else none
  | [] => none

mutual

/-- Remainder after one JSON value, fuel-bounded.  Models the grammar
accepted by Python's `json.loads` (including its `NaN` and `Infinity`
extensions). -/
def jsonVal : Nat → List Char → Option (List Char)
  | 0, _ => none
  | Nat.succ fuel, l =>
    match l.dropWhile jsonWs with
    | '"' :: r => jsonStrRest r
    | '\x7b' :: r =>
      (match r.dropWhile jsonWs with
       | '\x7d' :: r2 => some r2
       | r1 => jsonMembers fuel r1)
    | '[' :: r =>
      (match r.dropWhile jsonWs with
       | ']' :: r2 => some r2
       | r1 => jsonItems fuel r1)
    | 't' :: 'r' :: 'u' :: 'e' :: r => some r
    | 'f' :: 'a' :: 'l' :: 's' :: 'e' :: r => some r
    | 'n' :: 'u' :: 'l' :: 'l' :: r => some r
    | 'N' :: 'a' :: 'N' :: r => some r
    | 'I' :: 'n' :: 'f' :: 'i' :: 'n' :: 'i' :: 't' :: 'y' :: r => some r
    | '-' :: 'I' :: 'n' :: 'f' :: 'i' :: 'n' :: 'i' :: 't' :: 'y' :: r => some r
    | l2 => jsonNumRest l2

/-- Remainder after the members of a JSON object (first key expected next),
fuel-bounded. -/
def jsonMembers : Nat → List Char → Option (List Char)
  | 0, _ => none
  | Nat.succ fuel, l =>
    match l.dropWhile jsonWs with
    | '"' :: r =>
      (match jsonStrRest r with
       | none => none
       | some r2 =>
         match r2.dropWhile jsonWs with
         | ':' :: r3 =>
           (match jsonVal fuel r3 with
            | none => none
            | some r4 =>
              match r4.dropWhile jsonWs with
              | ',' :: r5 => jsonMembers fuel r5
              | '\x7d' :: r5 => some r5
              | _ => none)
         | _ => none)
    | _ => none

/-- Remainder after the items of a JSON array (first item expected next),
fuel-bounded. -/
def jsonItems : Nat → List Char → Option (List Char)
  | 0, _ => none
  | Nat.succ fuel, l =>
    match jsonVal fuel l with
    | none => none
    | some r =>
      match r.dropWhile jsonWs with
      | ',' :: r2 => jsonItems fuel r2
      | ']' :: r2 => some r2
      | _ => none

end

/-- Acceptance of Python's `json.loads(content)`: one JSON value followed
only by whitespace. -/
def json_valid (c : List Char) : Bool :=
  match jsonVal (c.length + 1) c with
  | some r => (r.dropWhile jsonWs).isEmpty
  | none => false

/-- JSON fallback of `utils.detect_file_type_from_content`: strict parse,
then the brace-and-pattern heuristic of the `except` branch. -/
def jsonDetectBranch (c : List Char) : Option (List Char) :=
  let cs := pyStrip c
  if pyStarts "\x7b".toList cs || pyStarts "[".toList cs then
    if json_valid c then some ("json".toList)
    else
      if (pyStarts "\x7b".toList cs && c.any (fun x => x = '\x7d')) ||
          (pyStarts "[".toList cs && c.any (fun x => x = ']')) then
        if reSearch jsonKeyAt c && reSearch jsonValAt c then some ("json".toList)
        else none
      else none
  else none

/-- Content-based detection `utils.detect_file_type_from_content`. -/
def detect_file_type_from_content (c : List Char) : Option (List Char) :=
  if (pyStrip c).isEmpty then none
  else if pyStarts "<?xml".toList (pyStrip c) then some ("xml".toList)
  else if 1 ≤ tagCount c then
    if 2 ≤ tagCount c then
      if reSearch closingTagAt c || reSearch selfCloseAt c then some ("xml".toList)
      else if 3 ≤ tagCount c then some ("xml".toList)
      else jsonDetectBranch c
    else jsonDetectBranch c
  else jsonDetectBranch c

/-- A pattern matcher as `SyntaxHighlighter.highlightBlock` uses `QRegExp`:
from a start offset, report the next match start and its length, or
nothing. -/
abbrev Matcher := List Char → Nat → Option (Nat × Nat)

/-- Contract of `QRegExp.indexIn` / `matchedLength`: a reported match lies
within the text. -/
def ValidMatcher (m : Matcher) : Prop :=
  ∀ t i s l, m t i = some (s, l) → s + l ≤ t.length

/-- Inner while-loop of `SyntaxHighlighter.highlightBlock` for one rule:
repeatedly match from the current offset, emit `(start, length)`, resume at
`start + length`.  Fuel-bounded so that a zero-length match cannot recurse
forever (the Python loop would spin there; the source's rule patterns all
match at least one character). -/
def applyRuleGo (m : Matcher) (text : List Char) : Nat → Nat → List (Nat × Nat)
  | 0, _ => []
  | Nat.succ fuel, start =>
    match m text start with
    | none => []
    | some (s, l) => (s, l) :: applyRuleGo m text fuel (s + l)

/-- Spans emitted for one rule of the table. -/
def applyRule (m : Matcher) (text : List Char) : List (Nat × Nat) :=
  applyRuleGo m text (text.length + 1) 0

/-- Outer loop of `SyntaxHighlighter.highlightBlock`: all spans emitted by
`setFormat`, rule by rule in table order. -/
def highlightBlock (rules : List Matcher) (text : List Char) : List (Nat × Nat) :=
  rules.flatMap (fun m => applyRule m text)

/-- Literal-substring matcher, used to exercise the highlighting loop:
first occurrence of a fixed pattern at or after the start offset. -/
def litFind (pat : List Char) : List Char → Option Nat
  | [] => none
  | c :: tl => if pyStarts pat (c :: tl) then some 0 else (litFind pat tl).map (· + 1)

/-- Matcher searching a fixed non-empty pattern literally. -/
def litMatcher (pat : List Char) : Matcher := fun t i =>
  if pat.isEmpty then none
  else (litFind pat (t.drop i)).map (fun k => (i + k, pat.length))

/-- Comment line in the sense of the XML blank-line heuristic: the stripped
line starts a comment. -/
def specIsCommentLine (l : List Char) : Bool := pyStarts "<!--".toList (pyStrip l)

/-- Closing-tag line in the sense of the XML blank-line heuristic. -/
def specIsClosingLine (l : List Char) : Bool := pyStarts "</".toList (pyStrip l)

/-- Opening-tag line in the sense of the XML blank-line heuristic: starts a
tag that is neither closing nor a comment. -/
def specIsOpeningLine (l : List Char) : Bool :=
  pyStarts "<".toList (pyStrip l) && !specIsClosingLine l && !specIsCommentLine l

/-- Blank-line rule of the XML secondary pass written from the spec (as
amended): one blank line goes before an opening tag when the preceding line
is a closing tag at equal-or-greater indentation than it, or is an opening
tag at the same nonzero indentation (sibling heuristic); comment lines
never trigger insertion. -/
def specBlankBefore (prev : Option (List Char)) (line : List Char) : Bool :=
  match prev with
  | none => false
  | some p =>
    specIsOpeningLine line &&
      ((specIsClosingLine p && decide (indentOf line ≤ indentOf p)) ||
       (specIsOpeningLine p && decide (indentOf line = indentOf p) &&
         decide (0 < indentOf line)))

/-- Blank-line rule exactly as the claim words it: the sibling case fires
at any same indentation depth, without requiring it to be nonzero. -/
def specBlankBeforeLit (prev : Option (List Char)) (line : List Char) : Bool :=
  match prev with
  | none => false
  | some p =>
    specIsOpeningLine line &&
      ((specIsClosingLine p && decide (indentOf line ≤ indentOf p)) ||
       (specIsOpeningLine p && decide (indentOf line = indentOf p)))

/-- Pairing of each cleaned line with the preceding non-declaration line
and a last-line flag, the reading order the spec describes. -/
def annotate (prev : Option (List Char)) :
    List (List Char) → List (List Char × Option (List Char) × Bool)
  | [] => []
  | l :: rest =>
    (l, prev, rest.isEmpty) :: annotate (if isDecl l then prev else some l) rest

/-- Spec-side emission for one annotated line: a declaration line keeps its
place and is followed by one blank line unless last; any other line is
preceded by one blank line exactly when the blank-line rule fires. -/
def specEmit (e : List Char × Option (List Char) × Bool) : List (List Char) :=
  if isDecl e.1 then e.1 :: (if e.2.2 then [] else [[]])
  else if specBlankBefore e.2.1 e.1 then [[], e.1] else [e.1]

/-- Spec-side XML secondary pass (amended claim). -/
def xmlPassSpec (lines : List (List Char)) : List (List Char) :=
  (annotate none lines).flatMap specEmit

/-- Emission for one annotated line exactly as the claim words it. -/
def specEmitLit (e : List Char × Option (List Char) × Bool) : List (List Char) :=
  if isDecl e.1 then e.1 :: (if e.2.2 then [] else [[]])
  else if specBlankBeforeLit e.2.1 e.1 then [[], e.1] else [e.1]

/-- Spec-side XML secondary pass exactly as the claim words it. -/
def xmlPassSpecLit (lines : List (List Char)) : List (List Char) :=
  (annotate none lines).flatMap specEmitLit

/-- One line of the Python-like formatter as the spec narrates it (as
amended): on state `(level, output so far)`, a blank line is emitted as an
empty line leaving the level unchanged; otherwise decrement before emitting
on the `elif`-class keywords, emit `level*4` spaces plus the stripped line,
then increment on a trailing colon or else decrement on the `return`-class
keywords. -/
def pySpecStep (st : Nat × List (List Char)) (line : List Char) :
    Nat × List (List Char) :=
  let s := pyLstrip line
  if s.isEmpty then (st.1, st.2 ++ [[]])
  else
    let pre := if pyPreDec s then st.1 - 1 else st.1
    let emitted := spaces (pre * 4) ++ s
    let post := if pyPostInc s then pre + 1 else if pyPostDec s then pre - 1 else pre
    (post, st.2 ++ [emitted])

/-- Spec-side Python-like formatter (amended claim), a left fold of
`pySpecStep` over the lines. -/
def pyFormatSpec (content : List Char) : FmtResult :=
  if pyIsBlank content then (none, some noContentMsg)
  else (some (joinNl ((splitNl content).foldl pySpecStep (0, [])).2), none)

/-- Line loop of the Python-like formatter exactly as the claim words it:
blank lines pass through unchanged. -/
def pyGoLit : Nat → List (List Char) → List (List Char)
  | _, [] => []
  | lvl, line :: rest =>
    let s := pyLstrip line
    if s.isEmpty then line :: pyGoLit lvl rest
    else
      let l1 := if pyPreDec s then lvl - 1 else lvl
      let out := spaces (l1 * 4) ++ s
      let l2 := if pyPostInc s then l1 + 1 else if pyPostDec s then l1 - 1 else l1
      out :: pyGoLit l2 rest

/-- Python-like formatter exactly as the claim words it. -/
def pyFormatLit (content : List Char) : FmtResult :=
  if pyIsBlank content then (none, some noContentMsg)
  else (some (joinNl (pyGoLit 0 (splitNl content))), none)

theorem pyLstrip_spaces_append (n : Nat) (l : List Char) :
    pyLstrip (spaces n ++ l) = pyLstrip l := by
  induction n with
  | zero => simp [spaces]
  | succ k ih =>
    simp only [spaces, List.replicate_succ, List.cons_append]
    simp only [pyLstrip, List.dropWhile, pyIsSpace] at ih ⊢
    simpa using ih

theorem pyLstrip_head_not_space (l : List Char) (c : Char) (t : List Char)
    (h : pyLstrip l = c :: t) : pyIsSpace c = false := by
  induction l with
  | nil => simp [pyLstrip] at h
  | cons a as ih =>
    rcases ha : pyIsSpace a with _ | _
    · have : pyLstrip (a :: as) = a :: as := by
        simp [pyLstrip, List.dropWhile, ha]
      rw [this] at h
      cases h
      exact ha
    · exact ih (by simpa [pyLstrip, List.dropWhile, ha] using h)

theorem pyLstrip_idem (l : List Char) : pyLstrip (pyLstrip l) = pyLstrip l := by
  rcases h : pyLstrip l with _ | ⟨c, t⟩
  · simp [pyLstrip]
  · have hc := pyLstrip_head_not_space l c t h
    simp [pyLstrip, List.dropWhile, hc]

theorem pyLstrip_eq_nil_iff (l : List Char) : pyLstrip l = [] ↔ pyIsBlank l = true := by
  induction l with
  | nil => simp [pyLstrip, pyIsBlank]
  | cons a as ih =>
    by_cases ha : pyIsSpace a
    · simp only [pyLstrip, List.dropWhile, ha, pyIsBlank, List.all_cons, Bool.true_and]
      exact ih
    · simp [pyLstrip, List.dropWhile, ha, pyIsBlank]

theorem pyLstrip_sub (l : List Char) : ∀ c ∈ pyLstrip l, c ∈ l :=
  fun _ hc => (List.dropWhile_sublist pyIsSpace).mem hc

theorem relevelGo_cons_blank (size : Nat) (p1 p2 p3 : List Char → Bool)
    (lvl : Nat) (line : List Char) (rest : List (List Char))
    (h : (pyLstrip line).isEmpty = true) :
    relevelGo size p1 p2 p3 lvl (line :: rest) =
      [] :: relevelGo size p1 p2 p3 lvl rest := by
  simp [relevelGo, h]

theorem relevelGo_cons_text (size : Nat) (p1 p2 p3 : List Char → Bool)
    (lvl : Nat) (line : List Char) (rest : List (List Char))
    (h : (pyLstrip line).isEmpty = false) :
    relevelGo size p1 p2 p3 lvl (line :: rest) =
      (spaces (preLvl p1 lvl (pyLstrip line) * size) ++ pyLstrip line) ::
        relevelGo size p1 p2 p3
          (postLvl p2 p3 (preLvl p1 lvl (pyLstrip line)) (pyLstrip line)) rest := by
  simp [relevelGo, h]

/-- Output lines of the re-leveler strip to the same content as the input
lines, and blank input lines come out empty. -/
theorem relevelGo_forall₂ (size : Nat) (p1 p2 p3 : List Char → Bool) :
    ∀ (lines : List (List Char)) (lvl : Nat),
      List.Forall₂
        (fun o i => pyLstrip o = pyLstrip i ∧ (pyIsBlank i = true → o = []))
        (relevelGo size p1 p2 p3 lvl lines) lines := by
  intro lines
  induction lines with
  | nil => intro lvl; simp [relevelGo]
  | cons line rest ih =>
    intro lvl
    rcases hb : (pyLstrip line).isEmpty with _ | _
    · rw [relevelGo_cons_text size p1 p2 p3 lvl line rest hb]
      refine List.forall₂_cons.mpr ⟨⟨?_, ?_⟩, ih _⟩
      · rw [pyLstrip_spaces_append, pyLstrip_idem]
      · intro hbl
        exact absurd ((pyLstrip_eq_nil_iff line).mpr hbl)
          (by simp [List.isEmpty_iff] at hb; simp [hb])
    · rw [relevelGo_cons_blank size p1 p2 p3 lvl line rest hb]
      refine List.forall₂_cons.mpr ⟨⟨?_, fun _ => rfl⟩, ih lvl⟩
      simp only [List.isEmpty_iff] at hb
      rw [hb]
      rfl

theorem relevelGo_length (size : Nat) (p1 p2 p3 : List Char → Bool)
    (lines : List (List Char)) (lvl : Nat) :
    (relevelGo size p1 p2 p3 lvl lines).length = lines.length :=
  (relevelGo_forall₂ size p1 p2 p3 lines lvl).length_eq

/-- The re-leveler is idempotent at any starting level. -/
theorem relevelGo_idem (size : Nat) (p1 p2 p3 : List Char → Bool) :
    ∀ (lines : List (List Char)) (lvl : Nat),
      relevelGo size p1 p2 p3 lvl (relevelGo size p1 p2 p3 lvl lines) =
        relevelGo size p1 p2 p3 lvl lines := by
  intro lines
  induction lines with
  | nil => intro lvl; simp [relevelGo]
  | cons line rest ih =>
    intro lvl
    rcases hb : (pyLstrip line).isEmpty with _ | _
    · have hs : pyLstrip (spaces (preLvl p1 lvl (pyLstrip line) * size)
          ++ pyLstrip line) = pyLstrip line := by
        rw [pyLstrip_spaces_append, pyLstrip_idem]
      rw [relevelGo_cons_text size p1 p2 p3 lvl line rest hb,
        relevelGo_cons_text size p1 p2 p3 lvl _ _ (by rw [hs]; exact hb),
        hs, ih]
    · rw [relevelGo_cons_blank size p1 p2 p3 lvl line rest hb,
        relevelGo_cons_blank size p1 p2 p3 lvl [] _ (by rfl), ih]

theorem relevelGo_no_newline (size : Nat) (p1 p2 p3 : List Char → Bool)
    (lines : List (List Char)) (h : ∀ l ∈ lines, '\n' ∉ l) :
    ∀ (lvl : Nat), ∀ o ∈ relevelGo size p1 p2 p3 lvl lines, '\n' ∉ o := by
  induction lines with
  | nil => intro lvl o ho; simp [relevelGo] at ho
  | cons line rest ih =>
    intro lvl o ho
    rcases hb : (pyLstrip line).isEmpty with _ | _
    · rw [relevelGo_cons_text size p1 p2 p3 lvl line rest hb] at ho
      rcases List.mem_cons.mp ho with h1 | h1
      · subst h1
        intro hmem
        rcases List.mem_append.mp hmem with h2 | h2
        · have := List.eq_of_mem_replicate h2
          simp at this
        · exact h line (by simp) (pyLstrip_sub line '\n' h2)
      · exact ih (fun l hl => h l (by simp [hl])) _ o h1
    · rw [relevelGo_cons_blank size p1 p2 p3 lvl line rest hb] at ho
      rcases List.mem_cons.mp ho with h1 | h1
      · simp [h1]
      · exact ih (fun l hl => h l (by simp [hl])) lvl o h1

theorem relevelGo_ne_nil (size : Nat) (p1 p2 p3 : List Char → Bool)
    (lines : List (List Char)) (lvl : Nat) (h : lines ≠ []) :
    relevelGo size p1 p2 p3 lvl lines ≠ [] := by
  intro hc
  have := relevelGo_length size p1 p2 p3 lines lvl
  rw [hc] at this
  exact h (List.length_eq_zero.mp this.symm)

/-- A string all of whose split lines are blank is blank. -/
theorem pyIsBlank_of_lines (c : List Char)
    (h : ∀ l ∈ splitNl c, pyIsBlank l = true) : pyIsBlank c = true := by
  induction c with
  | nil => simp [pyIsBlank]
  | cons a cs ih =>
    by_cases ha : a = '\n'
    · subst ha
      simp only [splitNl, if_pos rfl] at h
      have hrest : pyIsBlank cs = true := ih (fun l hl => h l (by simp [hl]))
      simp [pyIsBlank, pyIsSpace] at *
      exact hrest
    · simp only [splitNl, ha, if_false] at h
      rcases hsp : splitNl cs with _ | ⟨m, ms⟩
      · exact absurd hsp (splitNl_ne_nil cs)
      · rw [hsp] at h
        have h1 : pyIsBlank (a :: m) = true := h (a :: m) (by simp)
        have h2 : pyIsBlank cs = true := by
          refine ih fun l hl => ?_
          rw [hsp] at hl
          rcases List.mem_cons.mp hl with h3 | h3
          · subst h3
            simp only [pyIsBlank, List.all_cons, Bool.and_eq_true] at h1 ⊢
            exact h1.2
          · exact h l (by simp [h3])
        simp only [pyIsBlank, List.all_cons, Bool.and_eq_true] at h1 ⊢
        exact ⟨h1.1, h2⟩

/-- A join with some non-blank line is non-blank. -/
theorem joinNl_not_blank (ls : List (List Char)) (l : List Char)
    (hmem : l ∈ ls) (hnb : pyIsBlank l = false) : pyIsBlank (joinNl ls) = false := by
  induction ls with
  | nil => simp at hmem
  | cons x rest ih =>
    rcases rest with _ | ⟨y, ys⟩
    · simp at hmem
      subst hmem
      simpa [joinNl] using hnb
    · rcases List.mem_cons.mp hmem with h1 | h1
      · subst h1
        have : joinNl (l :: y :: ys) = l ++ '\n' :: joinNl (y :: ys) := rfl
        rw [this]
        simp only [pyIsBlank, List.all_append, Bool.and_eq_false_iff] at hnb ⊢
        exact Or.inl hnb
      · have : joinNl (x :: y :: ys) = x ++ '\n' :: joinNl (y :: ys) := rfl
        rw [this]
        have hr := ih h1
        simp only [pyIsBlank, List.all_append, List.all_cons, Bool.and_eq_false_iff] at hr ⊢
        exact Or.inr (by simp [pyIsSpace, hr])

/-- Splitting the joined re-leveler output recovers its lines. -/
theorem relevel_split_join (size : Nat) (p1 p2 p3 : List Char → Bool)
    (content : List Char) :
    splitNl (joinNl (relevelGo size p1 p2 p3 0 (splitNl content))) =
      relevelGo size p1 p2 p3 0 (splitNl content) :=
  splitNl_joinNl _
    (relevelGo_ne_nil size p1 p2 p3 _ 0 (splitNl_ne_nil content))
    (relevelGo_no_newline size p1 p2 p3 _ (splitNl_no_newline content) 0)

theorem pyIsBlank_append (a b : List Char) :
    pyIsBlank (a ++ b) = (pyIsBlank a && pyIsBlank b) := by
  simp [pyIsBlank]

/-- A non-blank input yields a non-blank re-leveled output. -/
theorem relevel_not_blank (size : Nat) (p1 p2 p3 : List Char → Bool)
    (content : List Char) (h : pyIsBlank content = false) :
    pyIsBlank (joinNl (relevelGo size p1 p2 p3 0 (splitNl content))) = false := by
  have hex : ∃ l ∈ splitNl content, pyIsBlank l = false := by
    by_contra hc
    push_neg at hc
    have : ∀ l ∈ splitNl content, pyIsBlank l = true := by
      intro l hl
      rcases hb : pyIsBlank l with _ | _
      · exact absurd hb (hc l hl)
      · rfl
    rw [pyIsBlank_of_lines content this] at h
    cases h
  obtain ⟨l, hl, hnb⟩ := hex
  -- find the matching non-blank output line by induction
  suffices hout : ∀ (lines : List (List Char)) (lvl : Nat), (∃ m ∈ lines, pyIsBlank m = false) →
      ∃ o ∈ relevelGo size p1 p2 p3 lvl lines, pyIsBlank o = false by
    obtain ⟨o, ho, honb⟩ := hout (splitNl content) 0 ⟨l, hl, hnb⟩
    exact joinNl_not_blank _ o ho honb
  intro lines
  induction lines with
  | nil => intro lvl hex; simp at hex
  | cons line rest ih =>
    intro lvl hex
    rcases hb : (pyLstrip line).isEmpty with _ | _
    · rw [relevelGo_cons_text size p1 p2 p3 lvl line rest hb]
      rcases h0 : pyLstrip line with _ | ⟨c, t⟩
      · rw [h0] at hb; cases hb
      · refine ⟨spaces (preLvl p1 lvl (c :: t) * size) ++ c :: t,
          List.mem_cons_self _ _, ?_⟩
        rw [pyIsBlank_append]
        have hc := pyLstrip_head_not_space line c t h0
        simp [pyIsBlank, hc]
    · rw [relevelGo_cons_blank size p1 p2 p3 lvl line rest hb]
      rcases hex with ⟨m, hm, hmnb⟩
      rcases List.mem_cons.mp hm with h1 | h1
      · subst h1
        rw [(pyLstrip_eq_nil_iff m).mp (List.isEmpty_iff.mp hb)] at hmnb
        cases hmnb
      · obtain ⟨o, ho, honb⟩ := ih lvl ⟨m, h1, hmnb⟩
        exact ⟨o, by simp [ho], honb⟩

/-- Accumulator form of the spec-side fold equals the re-leveler loop. -/
theorem foldl_pySpecStep (lines : List (List Char)) :
    ∀ (lvl : Nat) (acc : List (List Char)),
      ((lines.foldl pySpecStep (lvl, acc)).2 : List (List Char)) =
        acc ++ relevelGo 4 pyPreDec pyPostInc pyPostDec lvl lines := by
  induction lines with
  | nil => intro lvl acc; simp [relevelGo]
  | cons line rest ih =>
    intro lvl acc
    rcases hb : (pyLstrip line).isEmpty with _ | _
    · rw [relevelGo_cons_text 4 pyPreDec pyPostInc pyPostDec lvl line rest hb]
      have hstep : pySpecStep (lvl, acc) line =
          (postLvl pyPostInc pyPostDec (preLvl pyPreDec lvl (pyLstrip line)) (pyLstrip line),
            acc ++ [spaces (preLvl pyPreDec lvl (pyLstrip line) * 4) ++ pyLstrip line]) := by
        simp [pySpecStep, hb, preLvl, postLvl]
      rw [List.foldl_cons, hstep, ih]
      simp
    · rw [relevelGo_cons_blank 4 pyPreDec pyPostInc pyPostDec lvl line rest hb]
      have hstep : pySpecStep (lvl, acc) line = (lvl, acc ++ [[]]) := by
        simp [pySpecStep, hb]
      rw [List.foldl_cons, hstep, ih]
      simp

/-- The stateful blank-line decision of the source equals the spec-side
rule. -/
theorem xmlBlankBefore_eq_spec (prev : Option (List Char)) (line : List Char) :
    xmlBlankBefore prev line = specBlankBefore prev line := by
  rcases prev with _ | p
  · rfl
  · simp only [xmlBlankBefore, specBlankBefore, specIsOpeningLine,
      specIsClosingLine, specIsCommentLine]
    rcases hc : pyStarts "<!--".toList (pyStrip line) with _ | _ <;>
      rcases hcl : pyStarts "</".toList (pyStrip line) with _ | _ <;>
        rcases ho : pyStarts "<".toList (pyStrip line) with _ | _ <;>
          rcases pcl : pyStarts "</".toList (pyStrip p) with _ | _ <;>
            rcases po : pyStarts "<".toList (pyStrip p) with _ | _ <;>
              rcases pc : pyStarts "<!--".toList (pyStrip p) with _ | _ <;>
                simp [hc, hcl, ho, pcl, po, pc]

/-- The loop of the secondary pass equals the spec-side annotated emission,
for any previous-line state. -/
theorem xmlPassGo_eq_spec (lines : List (List Char)) :
    ∀ (prev : Option (List Char)),
      xmlPassGo prev lines = (annotate prev lines).flatMap specEmit := by
  induction lines with
  | nil => intro prev; simp [xmlPassGo, annotate]
  | cons l rest ih =>
    intro prev
    rcases hd : isDecl l with _ | _
    · simp only [xmlPassGo, annotate, hd, List.flatMap_cons, Bool.false_eq_true,
        if_false]
      rw [ih (some l), xmlBlankBefore_eq_spec]
      simp [specEmit, hd]
    · simp only [xmlPassGo, annotate, hd, List.flatMap_cons, if_true]
      rw [ih prev]
      simp [specEmit, hd]

theorem pyStarts_iff (p l : List Char) :
    pyStarts p l = true ↔ ∃ r, l = p ++ r := by
  induction p generalizing l with
  | nil => simp [pyStarts]
  | cons a ps ih =>
    rcases l with _ | ⟨b, cs⟩
    · simp [pyStarts]
    · simp only [pyStarts, Bool.and_eq_true, decide_eq_true_eq, ih, List.cons_append,
        List.cons.injEq]
      constructor
      · rintro ⟨rfl, r, rfl⟩
        exact ⟨r, rfl, rfl⟩
      · rintro ⟨r, rfl, rfl⟩
        exact ⟨rfl, r, rfl⟩

theorem pyStarts_length (p l : List Char) (h : pyStarts p l = true) :
    p.length ≤ l.length := by
  obtain ⟨r, rfl⟩ := (pyStarts_iff p l).mp h
  simp

theorem pyStarts_append (p l z : List Char) (h : pyStarts p l = true) :
    pyStarts p (l ++ z) = true := by
  obtain ⟨r, rfl⟩ := (pyStarts_iff p l).mp h
  exact (pyStarts_iff p _).mpr ⟨r ++ z, by simp⟩

theorem litFind_bound (pat : List Char) :
    ∀ (l : List Char) (k : Nat), litFind pat l = some k →
      k + pat.length ≤ l.length := by
  intro l
  induction l with
  | nil => intro k h; simp [litFind] at h
  | cons c tl ih =>
    intro k h
    simp only [litFind] at h
    rcases hs : pyStarts pat (c :: tl) with _ | _
    · rw [hs] at h
      simp only [Bool.false_eq_true, if_false, Option.map_eq_some'] at h
      obtain ⟨k2, hk2, rfl⟩ := h
      have := ih k2 hk2
      simp only [List.length_cons]
      omega
    · rw [hs] at h
      simp only [if_true, Option.some.injEq] at h
      subst h
      simpa using pyStarts_length pat (c :: tl) hs

/-- The literal matcher honours the matcher contract. -/
theorem litMatcher_valid (pat : List Char) : ValidMatcher (litMatcher pat) := by
  intro t i s l h
  simp only [litMatcher] at h
  rcases hp : pat.isEmpty with _ | _
  · rw [hp] at h
    simp only [Bool.false_eq_true, if_false, Option.map_eq_some'] at h
    obtain ⟨k, hk, hpair⟩ := h
    cases hpair
    have hb := litFind_bound pat (t.drop i) k hk
    rw [List.length_drop] at hb
    have hne : t.drop i ≠ [] := by
      intro hnil
      rw [hnil] at hk
      simp [litFind] at hk
    have hlen : i < t.length := by
      by_contra hge
      push_neg at hge
      exact hne (List.drop_eq_nil_of_le hge)
    omega
  · rw [hp] at h
    simp at h

/-- Spans of the per-rule loop inherit the matcher bound. -/
theorem applyRuleGo_bound (m : Matcher) (text : List Char) (hm : ValidMatcher m) :
    ∀ (fuel start s l : Nat), (s, l) ∈ applyRuleGo m text fuel start →
      s + l ≤ text.length := by
  intro fuel
  induction fuel with
  | zero => intro start s l h; simp [applyRuleGo] at h
  | succ f ih =>
    intro start s l h
    simp only [applyRuleGo] at h
    rcases hmm : m text start with _ | ⟨s2, l2⟩
    · rw [hmm] at h; simp at h
    · rw [hmm] at h
      rcases List.mem_cons.mp h with h1 | h1
      · cases h1
        exact hm text start s l hmm
      · exact ih (s2 + l2) s l h1

theorem find_next_nil (qlen cursor : Nat) : find_next [] qlen cursor = none := rfl

theorem find_next_found (positions : List Nat) (qlen cursor p : Nat)
    (h : positions.find? (fun q => decide (cursor < q)) = some p) :
    find_next positions qlen cursor = some (p, p + qlen) := by
  rcases positions with _ | ⟨p0, rest⟩
  · simp at h
  · simp only [find_next, List.isEmpty_cons, Bool.false_eq_true, if_false, h]

theorem find_next_wrap (p0 : Nat) (rest : List Nat) (qlen cursor : Nat)
    (h : ∀ q ∈ p0 :: rest, q ≤ cursor) :
    find_next (p0 :: rest) qlen cursor = some (p0, p0 + qlen) := by
  have hnone : (p0 :: rest).find? (fun q => decide (cursor < q)) = none := by
    rw [List.find?_eq_none]
    intro q hq
    simpa using Nat.not_lt.mpr (h q hq)
  simp only [find_next, List.isEmpty_cons, Bool.false_eq_true, if_false, hnone]

/-- Exactly one component of a formatter result is set. -/
def exactlyOne (r : FmtResult) : Prop :=
  (r.1.isSome = true ∧ r.2 = none) ∨ (r.1 = none ∧ r.2.isSome = true)

theorem format_xml_exactlyOne (pp : List Char → Except (List Char) (List Char))
    (content : List Char) : exactlyOne (format_xml pp content) := by
  unfold format_xml exactlyOne
  rcases hb : pyIsBlank content with _ | _
  · rcases hp : pp content with e | t <;> simp [hb, hp]
  · simp [hb]

theorem format_json_exactlyOne (pd : List Char → Except (List Char) (List Char))
    (content : List Char) : exactlyOne (format_json pd content) := by
  unfold format_json exactlyOne
  rcases hb : pyIsBlank content with _ | _
  · rcases hp : pd content with e | t <;> simp [hb, hp]
  · simp [hb]

theorem format_python_exactlyOne (content : List Char) :
    exactlyOne (format_python content) := by
  unfold format_python exactlyOne
  rcases hb : pyIsBlank content with _ | _ <;> simp [hb]

theorem format_css_exactlyOne (content : List Char) :
    exactlyOne (format_css content) := by
  unfold format_css exactlyOne
  rcases hb : pyIsBlank content with _ | _ <;> simp [hb]

theorem format_javascript_exactlyOne (content : List Char) :
    exactlyOne (format_javascript content) := by
  unfold format_javascript exactlyOne
  rcases hb : pyIsBlank content with _ | _ <;> simp [hb]

theorem dropWhile_append_left (p : Char → Bool) (a b : List Char)
    (h : a.all p = false) :
    List.dropWhile p (a ++ b) = List.dropWhile p a ++ b := by
  induction a with
  | nil => simp [List.all_nil] at h
  | cons x a2 ih =>
    rcases hx : p x with _ | _
    · simp [List.dropWhile, hx]
    · simp only [List.all_cons, hx, Bool.true_and] at h
      simp only [List.cons_append, List.dropWhile, hx]
      exact ih h

theorem pyRstrip_append (xs ys : List Char) (c : Char) (hc : c ∈ ys)
    (hcs : pyIsSpace c = false) :
    pyRstrip (xs ++ ys) = xs ++ pyRstrip ys := by
  unfold pyRstrip
  rw [List.reverse_append]
  have hall : ys.reverse.all pyIsSpace = false := by
    rcases hb : ys.reverse.all pyIsSpace with _ | _
    · rfl
    · have := List.all_eq_true.mp hb c (by simp [hc])
      rw [this] at hcs
      cases hcs
  rw [dropWhile_append_left pyIsSpace ys.reverse xs.reverse hall]
  simp

theorem pyRstrip_sub (l : List Char) : ∀ c ∈ pyRstrip l, c ∈ l := by
  intro c hc
  unfold pyRstrip at hc
  have := (List.dropWhile_sublist pyIsSpace (l := l.reverse)).mem
    (by simpa using hc)
  simpa using this

theorem splitNl_append_cons (D z : List Char) (h : '\n' ∉ D) :
    splitNl (D ++ '\n' :: z) = D :: splitNl z := by
  induction D with
  | nil => simp [splitNl]
  | cons a as ih =>
    have ha : a ≠ '\n' := fun hc => h (by simp [hc])
    have has : '\n' ∉ as := fun hc => h (by simp [hc])
    simp only [List.cons_append, splitNl, ha, if_false]
    rw [show as.append ('\n' :: z) = as ++ '\n' :: z from rfl, ih has]

theorem joinNl_cons (l : List Char) (t : List (List Char)) :
    joinNl (l :: t) = l ++ (if t.isEmpty then [] else '\n' :: joinNl t) := by
  rcases t with _ | ⟨m, ms⟩ <;> simp [joinNl]

/-- Every line emitted by the secondary pass is blank or one of the input
lines. -/
theorem xmlPassGo_mem (lines : List (List Char)) :
    ∀ (prev : Option (List Char)) (o : List Char), o ∈ xmlPassGo prev lines →
      o = [] ∨ o ∈ lines := by
  induction lines with
  | nil => intro prev o ho; simp [xmlPassGo] at ho
  | cons l rest ih =>
    intro prev o ho
    rcases hd : isDecl l with _ | _
    · simp only [xmlPassGo, hd, Bool.false_eq_true, if_false] at ho
      rcases List.mem_append.mp ho with h1 | h1
      · rcases hbl : xmlBlankBefore prev l with _ | _
        · rw [hbl] at h1
          simp at h1
          exact Or.inr (by simp [h1])
        · rw [hbl] at h1
          simp at h1
          rcases h1 with h2 | h2
          · exact Or.inl h2
          · exact Or.inr (by simp [h2])
      · rcases ih (some l) o h1 with h2 | h2
        · exact Or.inl h2
        · exact Or.inr (by simp [h2])
    · simp only [xmlPassGo, hd, if_true] at ho
      rcases List.mem_append.mp ho with h1 | h1
      · rcases List.mem_cons.mp h1 with h2 | h2
        · exact Or.inr (by simp [h2])
        · rcases hr : rest.isEmpty with _ | _
          · rw [hr] at h2; simp at h2; exact Or.inl h2
          · rw [hr] at h2; simp at h2
      · rcases ih prev o h1 with h3 | h3
        · exact Or.inl h3
        · exact Or.inr (by simp [h3])

theorem char_toNat_le_of_le (c d : Char) (h : c ≤ d) : c.toNat ≤ d.toNat := by
  simp only [Char.le_def, UInt32.le_def, BitVec.le_def] at h
  exact h

theorem char_ofNat_toNat (n : Nat) (h1 : 97 ≤ n) (h2 : n ≤ 122) :
    (Char.ofNat n).toNat = n := by
  unfold Char.ofNat
  split
  · simp [Char.ofNatAux, Char.toNat, UInt32.toNat, UInt32.ofNatCore]
  · rename_i h
    exact absurd (by constructor; omega : Nat.isValidChar n) h

/-- Lowercasing cannot produce or consume a character below the uppercase
range, such as the dot or the slash. -/
theorem pyToLower_eq_iff (c d : Char) (hd : d.toNat < 65) :
    (pyToLower c = d) ↔ c = d := by
  unfold pyToLower
  split
  · rename_i h
    obtain ⟨h1, h2⟩ := h
    have hc1 : 65 ≤ c.toNat := char_toNat_le_of_le 'A' c h1
    have hc2 : c.toNat ≤ 90 := char_toNat_le_of_le c 'Z' h2
    have hval : (Char.ofNat (c.toNat + 32)).toNat = c.toNat + 32 :=
      char_ofNat_toNat _ (by omega) (by omega)
    constructor
    · intro he
      rw [he] at hval
      omega
    · intro he
      subst he
      omega
  · exact Iff.rfl

theorem pathName_map_lower (f : List Char) :
    pathName (f.map pyToLower) = (pathName f).map pyToLower := by
  unfold pathName
  rw [← List.map_reverse, List.takeWhile_map]
  have hp : ((fun c => decide (c ≠ '/')) ∘ pyToLower) = fun c => decide (c ≠ '/') := by
    funext c
    simp only [Function.comp_apply, decide_eq_decide, ne_eq]
    rw [not_iff_not]
    exact pyToLower_eq_iff c '/' (by decide)
  rw [hp, List.map_reverse]

theorem pySuffix_map_lower (f : List Char) :
    pySuffix (f.map pyToLower) = (pySuffix f).map pyToLower := by
  have hp : ((fun c => decide (c = '.')) ∘ pyToLower) = fun c => decide (c = '.') := by
    funext c
    simp only [Function.comp_apply, decide_eq_decide]
    exact pyToLower_eq_iff c '.' (by decide)
  unfold pySuffix
  rw [pathName_map_lower, ← List.map_reverse, List.findIdx?_map, hp]
  rcases hidx : (pathName f).reverse.findIdx? (fun c => decide (c = '.')) with _ | j
  · simp
  · simp only [List.length_map]
    split
    · rw [← List.map_drop]
    · simp

/-- Extension lookup is case-insensitive: two filenames equal up to case
detect the same language. -/
theorem detect_language_ci (f g : List Char) (h : f.map pyToLower = g.map pyToLower) :
    detect_language f = detect_language g := by
  unfold detect_language
  have hlen : f.length = g.length := by
    have := congrArg List.length h
    simpa using this
  have hemp : f.isEmpty = g.isEmpty := by
    rcases f with _ | _ <;> rcases g with _ | _ <;> simp_all
  rw [hemp]
  rcases hg : g.isEmpty with _ | _
  · simp only [Bool.false_eq_true, if_false]
    have hext : (pySuffix f).map pyToLower = (pySuffix g).map pyToLower := by
      rw [← pySuffix_map_lower, ← pySuffix_map_lower, h]
    rw [hext]
  · rfl

/-- Both halves of the re-leveled pipeline output behave under a second
pass: the output is non-blank and re-formatting it reproduces it. -/
theorem relevel_pipeline_idem (size : Nat) (p1 p2 p3 : List Char → Bool)
    (c : List Char) (h : pyIsBlank c = false) :
    pyIsBlank (joinNl (relevelGo size p1 p2 p3 0 (splitNl c))) = false ∧
    joinNl (relevelGo size p1 p2 p3 0
        (splitNl (joinNl (relevelGo size p1 p2 p3 0 (splitNl c))))) =
      joinNl (relevelGo size p1 p2 p3 0 (splitNl c)) := by
  refine ⟨relevel_not_blank size p1 p2 p3 c h, ?_⟩
  rw [relevel_split_join, relevelGo_idem]

/-- Claim C1, counterexample: the CSS formatter succeeds on
`a{color:red;}` but formatting its own output changes it again (the `{`
rewrite inserts a space before the brace a second time), so
`format(format(x)) = format(x)` fails for the CSS formatter. -/
theorem claim_C1_counterexample :
    format_css ("a\x7bcolor:red;\x7d".toList) =
      (some ("a \x7b\n  color:red;\n\n\x7d".toList), none) ∧
    format_css ("a \x7b\n  color:red;\n\n\x7d".toList) ≠
      (some ("a \x7b\n  color:red;\n\n\x7d".toList), none) := by
  constructor
  · decide
  · decide

/-- Claim C1 (amended): the Python-like and JS-like formatters are
idempotent — for every input on which they succeed with output `t`,
formatting `t` succeeds and returns `t` unchanged.  (The CSS formatter is
not idempotent, see the counterexample; the XML and JSON formatters
delegate their parsing round to external libraries.) -/
theorem claim_C1 :
    (∀ c t, format_python c = (some t, none) → format_python t = (some t, none)) ∧
    (∀ c t, format_javascript c = (some t, none) →
      format_javascript t = (some t, none)) := by
  constructor
  · intro c t h
    unfold format_python at h ⊢
    rcases hb : pyIsBlank c with _ | _
    · rw [hb] at h
      simp only [Bool.false_eq_true, if_false] at h
      have ht : t = joinNl (relevelGo 4 pyPreDec pyPostInc pyPostDec 0 (splitNl c)) := by
        have := congrArg Prod.fst h
        simpa using this.symm
      obtain ⟨hnb, hidem⟩ := relevel_pipeline_idem 4 pyPreDec pyPostInc pyPostDec c hb
      rw [ht, hnb]
      simp only [Bool.false_eq_true, if_false]
      rw [hidem]
    · rw [hb] at h
      simp at h
  · intro c t h
    unfold format_javascript at h ⊢
    rcases hb : pyIsBlank c with _ | _
    · rw [hb] at h
      simp only [Bool.false_eq_true, if_false] at h
      have ht : t = joinNl (relevelGo 2 jsPreDec jsPostInc (fun _ => false) 0 (splitNl c)) := by
        have := congrArg Prod.fst h
        simpa using this.symm
      obtain ⟨hnb, hidem⟩ :=
        relevel_pipeline_idem 2 jsPreDec jsPostInc (fun _ => false) c hb
      rw [ht, hnb]
      simp only [Bool.false_eq_true, if_false]
      rw [hidem]
    · rw [hb] at h
      simp at h

/-- Witness for claim C1 at concrete inputs. -/
theorem claim_C1_witness :
    format_python ("  x".toList) = (some ("x".toList), none) ∧
    format_python ("x".toList) = (some ("x".toList), none) ∧
    format_javascript ("   y".toList) = (some ("y".toList), none) ∧
    format_javascript ("y".toList) = (some ("y".toList), none) :=
  ⟨by decide, claim_C1.1 ("  x".toList) ("x".toList) (by decide),
   by decide, claim_C1.2 ("   y".toList) ("y".toList) (by decide)⟩

/-- Claim C2: with an empty index `find_next` reports nothing and the
cursor stays; otherwise it selects the first match offset strictly beyond
the cursor, or wraps to the first position when none is; on document
`abcabcabc` with query `abc` the index is `[0, 3, 6]` and a cursor at
offset 6 wraps to the match at offset 0. -/
theorem claim_C2 :
    (∀ qlen cursor, find_next [] qlen cursor = none) ∧
    (∀ positions qlen cursor p,
      positions.find? (fun q => decide (cursor < q)) = some p →
      find_next positions qlen cursor = some (p, p + qlen)) ∧
    (∀ p0 rest qlen cursor, (∀ q ∈ p0 :: rest, q ≤ cursor) →
      find_next (p0 :: rest) qlen cursor = some (p0, p0 + qlen)) ∧
    findPositions ("abcabcabc".toList) ("abc".toList) = [0, 3, 6] ∧
    find_next [0, 3, 6] 3 6 = some (0, 3) :=
  ⟨find_next_nil, find_next_found, find_next_wrap, by decide, by decide⟩

/-- Witness for claim C2 at concrete inputs. -/
theorem claim_C2_witness :
    find_next [] 3 0 = none ∧
    find_next [0, 3, 6] 3 2 = some (3, 6) ∧
    find_next [0, 3, 6] 3 9 = some (0, 3) :=
  ⟨claim_C2.1 3 0,
   claim_C2.2.1 [0, 3, 6] 3 2 3 (by decide),
   claim_C2.2.2.1 0 [3, 6] 3 9 (by decide)⟩

/-- Claim C3, counterexample: two sibling openings at indentation zero.
The claim's sibling rule (same indentation depth, no further condition)
demands a blank line between them, but the code also requires the
indentation to be positive and inserts none. -/
theorem claim_C3_counterexample :
    xmlPassSpecLit ["<a/>".toList, "<b/>".toList] ≠
      xmlSecondaryPass ["<a/>".toList, "<b/>".toList] := by
  decide

/-- Claim C3 (amended): the secondary pass equals the spec-side emission,
where one blank line follows a declaration line that is not last, and one
blank line precedes an opening tag exactly when the preceding line (a
declaration never takes this role) is a closing tag whose indentation is at
least the opening tag's, or is a non-comment opening tag at the same
nonzero indentation; comment lines never trigger insertion. -/
theorem claim_C3 : ∀ lines, xmlSecondaryPass lines = xmlPassSpec lines :=
  fun lines => xmlPassGo_eq_spec lines none

/-- Claim C4, counterexample: the formatter leaves `color:red;` without a
space after the colon and emits a blank line before the closing brace, so
the claimed exact output `a {` / `  color: red;` / `}` is not produced. -/
theorem claim_C4_counterexample :
    format_css ("a\x7bcolor:red;\x7d".toList) ≠
      (some ("a \x7b\n  color: red;\n\x7d".toList), none) := by
  decide

/-- Claim C4 (amended): `a{color:red;}` formats to `a {`, then
`  color:red;` (the colon spacing of the input is kept — the character
rewrite inserts none), then one blank line, then `}` at base
indentation. -/
theorem claim_C4 :
    format_css ("a\x7bcolor:red;\x7d".toList) =
      (some ("a \x7b\n  color:red;\n\n\x7d".toList), none) := by
  decide

/-- Claim C5, counterexample: the blank-input error message is `No content
to format`, capitalised, not the claimed `no content to format`. -/
theorem claim_C5_counterexample :
    format_python [] = (none, some ("No content to format".toList)) ∧
    ("No content to format".toList : List Char) ≠ "no content to format".toList := by
  constructor
  · decide
  · decide

/-- Claim C5 (amended): for every one of the five formatters and every
input, exactly one of the two result members is set; and on blank
(empty or whitespace-only) input every formatter returns the error
`No content to format` and no text. -/
theorem claim_C5 :
    (∀ pp content, exactlyOne (format_xml pp content) ∧
      (pyIsBlank content = true → format_xml pp content = (none, some noContentMsg))) ∧
    (∀ pd content, exactlyOne (format_json pd content) ∧
      (pyIsBlank content = true → format_json pd content = (none, some noContentMsg))) ∧
    (∀ content, exactlyOne (format_python content) ∧
      (pyIsBlank content = true → format_python content = (none, some noContentMsg))) ∧
    (∀ content, exactlyOne (format_css content) ∧
      (pyIsBlank content = true → format_css content = (none, some noContentMsg))) ∧
    (∀ content, exactlyOne (format_javascript content) ∧
      (pyIsBlank content = true → format_javascript content = (none, some noContentMsg))) := by
  refine ⟨fun pp content => ⟨format_xml_exactlyOne pp content, fun hb => ?_⟩,
    fun pd content => ⟨format_json_exactlyOne pd content, fun hb => ?_⟩,
    fun content => ⟨format_python_exactlyOne content, fun hb => ?_⟩,
    fun content => ⟨format_css_exactlyOne content, fun hb => ?_⟩,
    fun content => ⟨format_javascript_exactlyOne content, fun hb => ?_⟩⟩
  · unfold format_xml; rw [hb]; rfl
  · unfold format_json; rw [hb]; rfl
  · unfold format_python; rw [hb]; rfl
  · unfold format_css; rw [hb]; rfl
  · unfold format_javascript; rw [hb]; rfl

/-- Witness for claim C5 at concrete inputs. -/
theorem claim_C5_witness :
    (exactlyOne (format_python ("  ".toList)) ∧
      format_python ("  ".toList) = (none, some noContentMsg)) ∧
    (exactlyOne (format_css ("a\x7bcolor:red;\x7d".toList)) ∧
      format_xml (fun _ => Except.error ("boom".toList)) ("<a>".toList) =
        (none, some ("boom".toList))) :=
  ⟨⟨(claim_C5.2.2.1 ("  ".toList)).1,
    (claim_C5.2.2.1 ("  ".toList)).2 (by decide)⟩,
   ⟨(claim_C5.2.2.2.1 ("a\x7bcolor:red;\x7d".toList)).1, by decide⟩⟩

/-- Claim C7, counterexample: a whitespace-only line does not pass through
unchanged — the line ` ` (one space) between two code lines is emitted as
an empty line. -/
theorem claim_C7_counterexample :
    format_python ("if x:\n \ny".toList) ≠ pyFormatLit ("if x:\n \ny".toList) := by
  decide

/-- Claim C7 (amended): the Python-like formatter equals the per-line
spec fold — level floored at zero, decrement before emitting on the
`elif`-class prefixes, emission of `level*4` spaces plus the stripped
line, increment on a trailing colon else decrement on the `return`-class
prefixes — with blank (empty or whitespace-only) lines emitted as empty
lines that leave the level unchanged. -/
theorem claim_C7 : ∀ content, format_python content = pyFormatSpec content := by
  intro content
  unfold format_python pyFormatSpec
  rcases hb : pyIsBlank content with _ | _
  · simp only [Bool.false_eq_true, if_false]
    rw [foldl_pySpecStep (splitNl content) 0 []]
    simp
  · rfl

/-- Claim C8: extension lookup is case-insensitive over the fixed table
and unknown or missing extensions yield `generic`, so `foo.JSON` detects as
`json`; content detection classifies a JSON object as `json`, tagged markup
as `xml`, and plain prose as nothing. -/
theorem claim_C8 :
    (∀ f g, f.map pyToLower = g.map pyToLower →
      detect_language f = detect_language g) ∧
    (∀ f, ((pySuffix f).map pyToLower) ∉
        [".xml".toList, ".html".toList, ".htm".toList, ".json".toList,
          ".py".toList, ".css".toList, ".js".toList, ".jsx".toList] →
      detect_language f = "generic".toList) ∧
    detect_language ("foo.JSON".toList) = "json".toList ∧
    detect_file_type_from_content ("\x7b\x22a\x22: 1\x7d".toList) = some ("json".toList) ∧
    detect_file_type_from_content ("<a><b/></a>".toList) = some ("xml".toList) ∧
    detect_file_type_from_content ("plain text, no markup".toList) = none := by
  refine ⟨detect_language_ci, ?_, by decide, by decide, by decide, by decide⟩
  intro f h
  simp only [List.mem_cons, List.not_mem_nil, or_false, not_or] at h
  obtain ⟨h1, h2, h3, h4, h5, h6, h7, h8⟩ := h
  unfold detect_language
  rcases hf : f.isEmpty with _ | _
  · simp only [Bool.false_eq_true, if_false]
    unfold lookupExt
    rw [if_neg h1, if_neg h2, if_neg h3, if_neg h4, if_neg h5, if_neg h6,
      if_neg h7, if_neg h8]
  · rfl

/-- Witness for claim C8 at concrete inputs. -/
theorem claim_C8_witness :
    detect_language ("A.XML".toList) = detect_language ("a.xml".toList) ∧
    detect_language ("foo.txt".toList) = "generic".toList :=
  ⟨claim_C8.1 ("A.XML".toList) ("a.xml".toList) (by decide),
   claim_C8.2.1 ("foo.txt".toList) (by decide)⟩

/-- Claim C9: whenever every rule matcher honours the `QRegExp` contract
(matches lie inside the text), every span the highlighting loop emits
satisfies `start + length ≤ len(text)`; starts and lengths are naturals,
so no span is negative. -/
theorem claim_C9 :
    ∀ (rules : List Matcher) (text : List Char),
      (∀ m ∈ rules, ValidMatcher m) →
      ∀ s l, (s, l) ∈ highlightBlock rules text → s + l ≤ text.length := by
  intro rules text hval s l hmem
  unfold highlightBlock at hmem
  obtain ⟨m, hm, hsp⟩ := List.mem_flatMap.mp hmem
  exact applyRuleGo_bound m text (hval m hm) (text.length + 1) 0 s l hsp

/-- Witness for claim C9: the literal matcher on a concrete line. -/
theorem claim_C9_witness :
    (∀ m ∈ ([litMatcher ("ab".toList)] : List Matcher), ValidMatcher m) ∧
    1 + 2 ≤ ("xaby".toList).length :=
  have hv : ∀ m ∈ ([litMatcher ("ab".toList)] : List Matcher), ValidMatcher m := by
    intro m hm
    rw [List.mem_singleton] at hm
    subst hm
    exact litMatcher_valid _
  ⟨hv, claim_C9 [litMatcher ("ab".toList)] ("xaby".toList) hv 1 2 (by decide)⟩

/-- Shape relation between one output line and its input line: the
left-stripped content is identical, and blank input lines come out
empty. -/
def LineShape (o i : List Char) : Prop :=
  pyLstrip o = pyLstrip i ∧ (pyIsBlank i = true → o = [])

/-- Claim C10: on any non-blank input the Python-like and JS-like
formatters succeed, the output has exactly as many lines as the input, and
line by line the left-stripped content is unchanged, with whitespace-only
input lines emitted as empty lines. -/
theorem claim_C10 :
    ∀ content, pyIsBlank content = false →
      (∃ t, format_python content = (some t, none) ∧
        (splitNl t).length = (splitNl content).length ∧
        List.Forall₂ LineShape (splitNl t) (splitNl content)) ∧
      (∃ u, format_javascript content = (some u, none) ∧
        (splitNl u).length = (splitNl content).length ∧
        List.Forall₂ LineShape (splitNl u) (splitNl content)) := by
  intro content hb
  constructor
  · refine ⟨joinNl (relevelGo 4 pyPreDec pyPostInc pyPostDec 0 (splitNl content)),
      ?_, ?_, ?_⟩
    · unfold format_python
      rw [hb]
      rfl
    · rw [relevel_split_join]
      exact relevelGo_length 4 pyPreDec pyPostInc pyPostDec (splitNl content) 0
    · rw [relevel_split_join]
      exact relevelGo_forall₂ 4 pyPreDec pyPostInc pyPostDec (splitNl content) 0
  · refine ⟨joinNl (relevelGo 2 jsPreDec jsPostInc (fun _ => false) 0 (splitNl content)),
      ?_, ?_, ?_⟩
    · unfold format_javascript
      rw [hb]
      rfl
    · rw [relevel_split_join]
      exact relevelGo_length 2 jsPreDec jsPostInc (fun _ => false) (splitNl content) 0
    · rw [relevel_split_join]
      exact relevelGo_forall₂ 2 jsPreDec jsPostInc (fun _ => false) (splitNl content) 0

/-- Witness for claim C10 at a concrete input. -/
theorem claim_C10_witness :
    pyIsBlank ("if x:\n \ny".toList) = false ∧
    ((∃ t, format_python ("if x:\n \ny".toList) = (some t, none) ∧
        (splitNl t).length = (splitNl ("if x:\n \ny".toList)).length ∧
        List.Forall₂ LineShape (splitNl t) (splitNl ("if x:\n \ny".toList))) ∧
      (∃ u, format_javascript ("if x:\n \ny".toList) = (some u, none) ∧
        (splitNl u).length = (splitNl ("if x:\n \ny".toList)).length ∧
        List.Forall₂ LineShape (splitNl u) (splitNl ("if x:\n \ny".toList)))) :=
  ⟨by decide, claim_C10 ("if x:\n \ny".toList) (by decide)⟩

/-- Unfolding equation of the secondary pass at a declaration line. -/
theorem xmlPassGo_cons_decl (prev : Option (List Char)) (l : List Char)
    (rest : List (List Char)) (h : isDecl l = true) :
    xmlPassGo prev (l :: rest) =
      l :: ((if rest.isEmpty = true then [] else [[]]) ++ xmlPassGo prev rest) := by
  simp [xmlPassGo, h]

/-- Claim C6: when the input starts with an XML declaration line `D` and
formatting succeeds, the output's first line is byte-identical to `D`,
whatever declaration the pretty-printer emitted (the hypothesis on
`cleanupLines` records that `minidom.toprettyxml` always emits a
declaration first). -/
theorem claim_C6 :
    ∀ (pp : List Char → Except (List Char) (List Char))
      (content D rest pretty l : List Char) (ls : List (List Char)) (out : List Char),
      pyStarts ("<?xml".toList) D = true →
      '\n' ∉ D →
      content = D ++ '\n' :: rest →
      (∃ c ∈ rest, pyIsSpace c = false) →
      pp content = Except.ok pretty →
      cleanupLines (splitNl pretty) = l :: ls →
      pyStarts ("<?xml".toList) l = true →
      format_xml pp content = (some out, none) →
      (splitNl out).headD [] = D := by
  intro pp content D rest pretty l ls out hD hnD hcontent hrest hpp hclean hl hout
  obtain ⟨dr, hDeq⟩ := (pyStarts_iff _ D).mp hD
  have hmem : '<' ∈ content := by
    rw [hcontent, hDeq]
    have : '<' ∈ "<?xml".toList := by decide
    exact List.mem_append_left _ (List.mem_append_left _ this)
  have hb : pyIsBlank content = false := by
    unfold pyIsBlank
    rw [List.all_eq_false]
    exact ⟨'<', hmem, by decide⟩
  unfold format_xml at hout
  rw [hb] at hout
  simp only [Bool.false_eq_true, if_false, hpp] at hout
  have hout2 : out = xmlPost pretty content := by
    have := congrArg Prod.fst hout
    simpa using this.symm
  have hdecl : isDecl l = true := hl
  have hpass : xmlSecondaryPass (l :: ls) =
      l :: ((if ls.isEmpty = true then [] else [[]]) ++ xmlPassGo none ls) :=
    xmlPassGo_cons_decl none l ls hdecl
  have hclean_nl : ∀ x ∈ cleanupLines (splitNl pretty), '\n' ∉ x := by
    intro x hx
    unfold cleanupLines at hx
    have hx2 := (List.mem_filter.mp hx).1
    obtain ⟨y, hy, rfl⟩ := List.mem_map.mp hx2
    intro hc
    exact splitNl_no_newline pretty y hy (pyRstrip_sub y '\n' hc)
  rw [hclean] at hclean_nl
  have hT_nl : ∀ x ∈ l :: ((if ls.isEmpty = true then [] else [[]]) ++ xmlPassGo none ls),
      '\n' ∉ x := by
    intro x hx
    rcases List.mem_cons.mp hx with h1 | h1
    · rw [h1]
      exact hclean_nl l (List.mem_cons_self _ _)
    · rcases List.mem_append.mp h1 with h2 | h2
      · rcases hle : ls.isEmpty with _ | _
        · rw [hle] at h2; simp at h2; simp [h2]
        · rw [hle] at h2; simp at h2
      · rcases xmlPassGo_mem ls none x h2 with h3 | h3
        · simp [h3]
        · exact hclean_nl x (List.mem_cons_of_mem l h3)
  have hsplit_fmt :
      splitNl (joinNl (l :: ((if ls.isEmpty = true then [] else [[]]) ++ xmlPassGo none ls))) =
        l :: ((if ls.isEmpty = true then [] else [[]]) ++ xmlPassGo none ls) :=
    splitNl_joinNl _ (by simp) hT_nl
  have hfmt_starts :
      pyStarts ("<?xml".toList)
        (joinNl (l :: ((if ls.isEmpty = true then [] else [[]]) ++ xmlPassGo none ls))) = true := by
    rcases hTc : (if ls.isEmpty = true then ([] : List (List Char)) else [[]]) ++
        xmlPassGo none ls with _ | ⟨t0, ts⟩
    · simpa [joinNl] using hl
    · have hjc : joinNl (l :: t0 :: ts) = l ++ '\n' :: joinNl (t0 :: ts) := rfl
      rw [hjc]
      exact pyStarts_append _ _ _ hl
  obtain ⟨c0, hc0mem, hc0⟩ := hrest
  have hl1 : pyLstrip content = content := by
    rw [hcontent, hDeq]
    show List.dropWhile pyIsSpace ('<' :: ("?xml".toList ++ dr ++ '\n' :: rest)) = _
    simp [List.dropWhile, pyIsSpace]
  have hstrip : pyStrip content = D ++ '\n' :: pyRstrip rest := by
    unfold pyStrip
    rw [hl1, hcontent]
    have hsplit2 : D ++ '\n' :: rest = (D ++ ['\n']) ++ rest := by simp
    rw [hsplit2, pyRstrip_append (D ++ ['\n']) rest c0 hc0mem hc0]
    simp
  have hDstarts : pyStarts ("<?xml".toList) (D ++ '\n' :: pyRstrip rest) = true := by
    rw [hDeq]
    have h5 : pyStarts ("<?xml".toList) ("<?xml".toList) = true := by decide
    have h6 := pyStarts_append _ _ dr h5
    simpa using pyStarts_append _ _ ('\n' :: pyRstrip rest) h6
  have hdecl_cond : pyStarts ("<?xml".toList) (pyStrip content) = true := by
    rw [hstrip]
    exact hDstarts
  have hhead : (splitNl (pyStrip content)).headD [] = D := by
    rw [hstrip, splitNl_append_cons D _ hnD]
    rfl
  have hpres : preserveDecl content
      (joinNl (l :: ((if ls.isEmpty = true then [] else [[]]) ++ xmlPassGo none ls))) =
      joinNl (D :: ((if ls.isEmpty = true then [] else [[]]) ++ xmlPassGo none ls)) := by
    unfold preserveDecl
    rw [hdecl_cond, hfmt_starts]
    simp only [if_true]
    rw [hsplit_fmt, hhead]
  have hout3 : out =
      joinNl (D :: ((if ls.isEmpty = true then [] else [[]]) ++ xmlPassGo none ls)) := by
    rw [hout2]
    unfold xmlPost
    rw [hclean, hpass, hpres]
  have hD_nl : ∀ x ∈ D :: ((if ls.isEmpty = true then [] else [[]]) ++ xmlPassGo none ls),
      '\n' ∉ x := by
    intro x hx
    rcases List.mem_cons.mp hx with h1 | h1
    · rw [h1]; exact hnD
    · exact hT_nl x (List.mem_cons_of_mem l h1)
  rw [hout3, splitNl_joinNl _ (by simp) hD_nl]
  rfl

/-- Witness for claim C6 at a concrete parser output and input. -/
theorem claim_C6_witness :
    format_xml (fun _ => Except.ok ("<?xml version=\"1.0\" ?>\n<a/>".toList))
        ("<?xml version=\"1.0\" encoding=\"ISO-8859-1\"?>\n<a/>".toList) =
      (some ("<?xml version=\"1.0\" encoding=\"ISO-8859-1\"?>\n\n<a/>".toList), none) ∧
    (splitNl ("<?xml version=\"1.0\" encoding=\"ISO-8859-1\"?>\n\n<a/>".toList)).headD [] =
      "<?xml version=\"1.0\" encoding=\"ISO-8859-1\"?>".toList :=
  ⟨by decide,
   claim_C6 (fun _ => Except.ok ("<?xml version=\"1.0\" ?>\n<a/>".toList))
     ("<?xml version=\"1.0\" encoding=\"ISO-8859-1\"?>\n<a/>".toList)
     ("<?xml version=\"1.0\" encoding=\"ISO-8859-1\"?>".toList)
     ("<a/>".toList)
     ("<?xml version=\"1.0\" ?>\n<a/>".toList)
     ("<?xml version=\"1.0\" ?>".toList)
     ["<a/>".toList]
     ("<?xml version=\"1.0\" encoding=\"ISO-8859-1\"?>\n\n<a/>".toList)
     (by decide) (by decide) (by decide) ⟨'<', by decide, by decide⟩ rfl
     (by decide) (by decide) (by decide)⟩

end SmartPad
